import Mathlib

/-!
Formal model of `src/trial1/langextract1.py` (langextract-examples, trial1):
the overlapping-window chunker `create_overlapping_chunks`, the multi-pass
extraction/deduplication pipeline of `process_pdf`, the output formatter
`format_fund_info`, and the page-range handling of `read_pdf`.

Python integers are modelled as `Int`, Python lists as `List`, Python `None`
as `Option.none`.  The `while` loop of the chunker carries a `fuel` counter so
that non-termination of the source loop appears as `Option.none`; an external
oracle call (`lx.extract`) is modelled as a function from (chunk index, pass
index) to `Option (List Extraction)`, where `Option.none` stands for a raised
exception (`OracleError`).
-/

/-- Python slicing `text[a:b]` (step 1): negative indices count from the end,
out-of-range bounds are clamped. -/
def pySlice (l : List Char) (a b : Int) : List Char :=
  let n : Int := l.length
  let a' : Int := if a < 0 then max (n + a) 0 else min a n
  let b' : Int := if b < 0 then max (n + b) 0 else min b n
  (l.drop a'.toNat).take (b'.toNat - a'.toNat)

/-- The `while start < text_length` loop of `create_overlapping_chunks`
(langextract1.py lines 169-178), instrumented to record the span
`(start, end)` of each appended chunk (the chunk itself is
`text[start:end]`, recovered by `pySlice`).  Per iteration:
`end = start + chunk_size`, clamped to `text_length`; the chunk is appended;
then `start = end - overlap if end < text_length else text_length`.
The source loop has no iteration bound; `fuel` counts iterations, so a run
that exhausts any finite fuel (the source loops forever, e.g. when
`overlap ≥ size`) yields `Option.none`. -/
def chunkSpansLoop (textLength chunkSize overlap : Int) :
    Nat → Int → List (Int × Int) → Option (List (Int × Int))
  | 0, start, acc => if start < textLength then Option.none else some acc
  | fuel + 1, start, acc =>
    if start < textLength then
      let e : Int := if start + chunkSize > textLength then textLength else start + chunkSize
      chunkSpansLoop textLength chunkSize overlap fuel
        (if e < textLength then e - overlap else textLength) (acc ++ [(start, e)])
    else some acc

/-- The spans of the chunks `create_overlapping_chunks` produces on a text of
length `textLength`.  Fuel `textLength.toNat + 1` is enough for every valid
configuration (`0 ≤ overlap < size`); for a configuration on which the source
loop never terminates the result is `Option.none` for every fuel. -/
def chunkSpans (textLength chunkSize overlap : Int) : Option (List (Int × Int)) :=
  chunkSpansLoop textLength chunkSize overlap (textLength.toNat + 1) 0 []

/-- `create_overlapping_chunks(text, chunk_size, overlap)`
(langextract1.py lines 163-180): the list of chunk texts, each the slice
`text[start:end]` of a recorded span. -/
def create_overlapping_chunks (text : List Char) (chunkSize overlap : Int) :
    Option (List (List Char)) :=
  (chunkSpans (text.length : Int) chunkSize overlap).map fun spans =>
    spans.map fun ab => pySlice text ab.1 ab.2

/-- `lx.data.Extraction` as the pipeline uses it: an extraction class, the
extracted text, and an attribute mapping (modelled as an association list). -/
structure Extraction where
  extraction_class : String
  extraction_text : String
  attributes : List (String × String)
deriving DecidableEq

/-- The dedup key built at langextract1.py lines 206-209:
`(extraction.extraction_class, extraction.extraction_text)`. -/
def extractionKey (e : Extraction) : String × String :=
  (e.extraction_class, e.extraction_text)

/-- `lx.data.AnnotatedDocument`: the original text plus the ordered list of
kept extractions. -/
structure AnnotatedDocument where
  text : List Char
  extractions : List Extraction
deriving DecidableEq

/-- The `for extraction in result.extractions` loop of `process_pdf`
(langextract1.py lines 204-213): state is `(seen_extractions, chunk_results)`;
an extraction whose key is already in `seen_extractions` is dropped, otherwise
it is appended to `chunk_results` and its key is recorded.
`seen_extractions` is a Python `set`, modelled as the list of recorded keys
(only membership is ever consulted). -/
def dedupLoop :
    List (String × String) → List Extraction → List Extraction →
      List (String × String) × List Extraction
  | seen, chunkResults, [] => (seen, chunkResults)
  | seen, chunkResults, e :: rest =>
    if extractionKey e ∈ seen then dedupLoop seen chunkResults rest
    else dedupLoop (extractionKey e :: seen) (chunkResults ++ [e]) rest

/-- The `for pass_num in range(extraction_passes)` loop of `process_pdf`
(langextract1.py lines 194-217) for chunk `i`.  `oracle i p = Option.none`
models `lx.extract` raising on pass `p`: the `except` clause logs and
`continue`s, so the state is unchanged.  A successful pass feeds its
extractions through `dedupLoop`. -/
def passLoop (oracle : Nat → Nat → Option (List Extraction)) (i : Nat) :
    List Nat → List (String × String) × List Extraction →
      List (String × String) × List Extraction
  | [], st => st
  | p :: ps, st =>
    match oracle i p with
    | Option.none => passLoop oracle i ps st
    | some exts => passLoop oracle i ps (dedupLoop st.1 st.2 exts)

/-- The `for i, chunk in enumerate(text_chunks)` loop of `process_pdf`
(langextract1.py lines 189-219): for each chunk the pass loop starts with an
empty `chunk_results`, and its results are appended to `all_results`. -/
def chunkProcessLoop (oracle : Nat → Nat → Option (List Extraction)) (passes : Nat) :
    List Nat → List (String × String) × List Extraction →
      List (String × String) × List Extraction
  | [], st => st
  | i :: is, st =>
    let r := passLoop oracle i (List.range passes) (st.1, [])
    chunkProcessLoop oracle passes is (r.1, st.2 ++ r.2)

/-- `not text_content.strip()` of langextract1.py line 159: true when the
text is all whitespace. -/
def stripIsEmpty (text : List Char) : Bool :=
  text.all fun c => c.isWhitespace

/-- `process_pdf` from the chunking step on (langextract1.py lines 159-228),
with the PDF text already read.  The outer `Option` distinguishes termination:
`Option.none` means the call never returns (the chunking loop spins forever);
`some r` means the function returns the Python value `r`, where `r` is
`Option.none` for Python `None` (whitespace-only text, or `all_results`
empty) and `some doc` for a built `AnnotatedDocument`.
The oracle is the `lx.extract` call on (chunk index, pass index);
`seen_extractions` starts empty (`set()`, line 187) for each run. -/
def process_pdf (oracle : Nat → Nat → Option (List Extraction)) (text : List Char)
    (chunkSize overlap : Int) (passes : Nat) : Option (Option AnnotatedDocument) :=
  if stripIsEmpty text then some Option.none
  else
    match chunkSpans (text.length : Int) chunkSize overlap with
    | Option.none => Option.none
    | some spans =>
      let st := chunkProcessLoop oracle passes (List.range spans.length) ([], [])
      some (if st.2 = [] then Option.none else some ⟨text, st.2⟩)

/-- Concatenation of the per-index streams, in index order. -/
def flatMapList (f : Nat → List Extraction) : List Nat → List Extraction
  | [] => []
  | x :: xs => f x ++ flatMapList f xs

/-- All extractions the oracle produced in one run, flattened in
(chunk index, pass index, oracle-returned order): a failed pass
(`Option.none`) contributes nothing. -/
def oracleStream (oracle : Nat → Nat → Option (List Extraction))
    (numChunks passes : Nat) : List Extraction :=
  flatMapList
    (fun i => flatMapList (fun p => (oracle i p).getD []) (List.range passes))
    (List.range numChunks)

/-- Modelled from the spec's wording for order preservation: keep the first
occurrence of each `(class, text)` identity of a stream, in stream order.
This is the specification-side description the pipeline is compared with. -/
def firstSeenSpec (seen : List (String × String)) : List Extraction → List Extraction
  | [] => []
  | e :: rest =>
    if extractionKey e ∈ seen then firstSeenSpec seen rest
    else e :: firstSeenSpec (extractionKey e :: seen) rest

/-- `oracle` with the single invocation (chunk `i`, pass `k`) replaced by `v`. -/
def updateOracle (oracle : Nat → Nat → Option (List Extraction)) (i k : Nat)
    (v : Option (List Extraction)) : Nat → Nat → Option (List Extraction) :=
  fun j p => if j = i ∧ p = k then v else oracle j p

/-- The seen-set after the first `n` chunks of a run that starts, as in the
source, from `seen_extractions = set()` and `all_results = []`. -/
def seenAfter (oracle : Nat → Nat → Option (List Extraction)) (passes n : Nat) :
    List (String × String) :=
  (chunkProcessLoop oracle passes (List.range n) ([], [])).1

/-- A Python value stored in the `fund_info` dict of `format_fund_info`:
`None`, a string, or the nested attributes dict. -/
inductive PyVal where
  | none : PyVal
  | str : String → PyVal
  | dict : List (String × List (String × String)) → PyVal
deriving DecidableEq

/-- The keys of a Python dict, in insertion order. -/
def dictKeys {α : Type} (m : List (String × α)) : List String :=
  m.map Prod.fst

/-- Python `m[k] = v`: overwrite in place when `k` is a key, append otherwise. -/
def dictSet {α : Type} (m : List (String × α)) (k : String) (v : α) :
    List (String × α) :=
  if k ∈ dictKeys m then m.map fun kv => if kv.1 = k then (k, v) else kv
  else m ++ [(k, v)]

/-- Python `m[k]` as an optional lookup: the first entry with key `k`. -/
def dictGet {α : Type} (m : List (String × α)) (k : String) : Option α :=
  match m with
  | [] => Option.none
  | kv :: rest => if kv.1 = k then some kv.2 else dictGet rest k

/-- The initial `fund_info` dict of `format_fund_info`
(langextract1.py lines 303-309). -/
def fundInfoInit : List (String × PyVal) :=
  [("isin", PyVal.none), ("asset_class", PyVal.none), ("expense_ratio", PyVal.none),
   ("issuer", PyVal.none), ("attributes", PyVal.dict [])]

/-- One iteration of the `for extraction in result.extractions` loop of
`format_fund_info` (langextract1.py lines 311-315).  An extraction whose
class is a key of `fund_info` overwrites that entry with its text and, when
its attribute map is non-empty (`if extraction.attributes:`), stores the map
under `fund_info['attributes'][class]`; any other extraction is skipped.
Writing into `fund_info['attributes']` when that slot no longer holds a dict
(the class `"attributes"` itself overwrote it with a string) is a Python
`TypeError`, modelled as `Except.error`. -/
def formatStep (info : List (String × PyVal)) (e : Extraction) :
    Except String (List (String × PyVal)) :=
  if e.extraction_class ∈ dictKeys info then
    let info1 := dictSet info e.extraction_class (PyVal.str e.extraction_text)
    if e.attributes = [] then Except.ok info1
    else
      match dictGet info1 "attributes" with
      | some (PyVal.dict d) =>
        Except.ok (dictSet info1 "attributes"
          (PyVal.dict (dictSet d e.extraction_class e.attributes)))
      | _ => Except.error "TypeError"
  else Except.ok info

/-- The whole extraction loop of `format_fund_info`: iterate `formatStep`, a
raised `TypeError` propagating out. -/
def formatLoop (info : List (String × PyVal)) : List Extraction →
    Except String (List (String × PyVal))
  | [] => Except.ok info
  | e :: rest =>
    match formatStep info e with
    | Except.ok info2 => formatLoop info2 rest
    | Except.error msg => Except.error msg

/-- `format_fund_info(result)` (langextract1.py lines 290-317): `{}` when the
result is `None` or has no extractions, otherwise the populated `fund_info`
dict. -/
def format_fund_info (result : Option AnnotatedDocument) :
    Except String (List (String × PyVal)) :=
  match result with
  | Option.none => Except.ok []
  | some r =>
    if r.extractions = [] then Except.ok []
    else formatLoop fundInfoInit r.extractions

/-- Python `l[i]` for a list: a negative index counts from the end; an index
out of range is an `IndexError`, modelled as `Option.none`. -/
def pyIndex {α : Type} (l : List α) (i : Int) : Option α :=
  if 0 ≤ i then l.get? i.toNat
  else if 0 ≤ i + (l.length : Int) then l.get? (i + (l.length : Int)).toNat
  else Option.none

/-- Python `range(a, b)`. -/
def intRange (a b : Int) : List Int :=
  (List.range (b - a).toNat).map fun k : Nat => a + (k : Int)

/-- Sequence a list of optional values, failing on the first `Option.none`. -/
def mapOption {α β : Type} (f : α → Option β) : List α → Option (List β)
  | [] => some []
  | x :: xs =>
    match f x, mapOption f xs with
    | some y, some ys => some (y :: ys)
    | _, _ => Option.none

/-- The effective end page of `read_pdf` (langextract1.py lines 45-48):
`None` becomes `total_pages`, otherwise `min(end_page, total_pages)`. -/
def clampedEnd (pages : List (List Char)) (end_page : Option Int) : Int :=
  match end_page with
  | Option.none => (pages.length : Int)
  | some ep => min ep (pages.length : Int)

/-- The effective start page of `read_pdf` (langextract1.py line 50):
`max(0, min(start_page, total_pages - 1))`. -/
def clampedStart (pages : List (List Char)) (start_page : Int) : Int :=
  max 0 (min start_page ((pages.length : Int) - 1))

/-- The page-range part of `read_pdf` (langextract1.py lines 44-58), with the
PDF already parsed into the list of page texts: the pages
`range(start_page, end_page)` (after clamping) are read and joined with a
newline.  `Option.none` would mean an out-of-range page access
(`IndexError`). -/
def read_pdf (pages : List (List Char)) (start_page : Int) (end_page : Option Int) :
    Option (List Char) :=
  (mapOption (pyIndex pages)
      (intRange (clampedStart pages start_page) (clampedEnd pages end_page))).map
    fun tc => List.intercalate ['\n'] tc

/-! ## Chunker lemmas -/

theorem chunkSpansLoop_exit {textLength chunkSize overlap : Int} {s : Int}
    (h : ¬ s < textLength) (fuel : Nat) (acc : List (Int × Int)) :
    chunkSpansLoop textLength chunkSize overlap fuel s acc = some acc := by
  cases fuel <;> simp [chunkSpansLoop, h]

theorem chunkSpansLoop_succ (textLength chunkSize overlap : Int) (fuel : Nat)
    (s : Int) (acc : List (Int × Int)) :
    chunkSpansLoop textLength chunkSize overlap (fuel + 1) s acc =
      if s < textLength then
        chunkSpansLoop textLength chunkSize overlap fuel
          (if (if s + chunkSize > textLength then textLength else s + chunkSize) < textLength
            then (if s + chunkSize > textLength then textLength else s + chunkSize) - overlap
            else textLength)
          (acc ++ [(s, if s + chunkSize > textLength then textLength else s + chunkSize)])
      else some acc := rfl

theorem chunkSpansLoop_spec (L chunkSize overlap : Int)
    (_hsize : 0 < chunkSize) (hov0 : 0 ≤ overlap) (hov : overlap < chunkSize) :
    ∀ fuel : Nat, ∀ s : Int, 0 ≤ s → L - s ≤ (fuel : Int) → ∀ acc : List (Int × Int),
      ∃ tail : List (Int × Int),
        chunkSpansLoop L chunkSize overlap fuel s acc = some (acc ++ tail) ∧
        (∀ ab ∈ tail, 0 ≤ ab.1 ∧ ab.1 < L ∧ ab.2 = min (ab.1 + chunkSize) L) ∧
        (∀ p : Int, s ≤ p → p < L → ∃ ab ∈ tail, ab.1 ≤ p ∧ p < ab.2) ∧
        (s < L → tail.head? = some (s, min (s + chunkSize) L) ∧
          (tail.getLast?).map Prod.snd = some L ∧
          s + ((tail.length : Int) - 1) * (chunkSize - overlap) < L) ∧
        (L ≤ s → tail = []) := by
  intro fuel
  induction fuel with
  | zero =>
    intro s hs hfuel acc
    have hLs : L ≤ s := by exact_mod_cast (by simpa using hfuel)
    refine ⟨[], ?_, ?_, ?_, ?_, ?_⟩
    · simpa using chunkSpansLoop_exit (by omega) 0 acc
    · simp
    · intro p hp hpL; omega
    · intro h; omega
    · intro _; rfl
  | succ fuel ih =>
    intro s hs hfuel acc
    by_cases hsL : s < L
    · rw [chunkSpansLoop_succ, if_pos hsL]
      set e : Int := if s + chunkSize > L then L else s + chunkSize with he_def
      set s' : Int := if e < L then e - overlap else L with hsdef
      have heL : e ≤ L := by rw [he_def]; split_ifs <;> omega
      have hse : s < e := by rw [he_def]; split_ifs <;> omega
      have he1 : e = min (s + chunkSize) L := by
        rw [he_def, min_def]; split_ifs <;> omega
      have heE : e < L → e = s + chunkSize := by
        rw [he_def]; split_ifs <;> omega
      have hs'0 : 0 ≤ s' := by
        rw [hsdef]
        split_ifs with h
        · have := heE h; omega
        · omega
      have hfuel' : L - s' ≤ (fuel : Int) := by
        rw [hsdef]
        split_ifs with h
        · have := heE h; push_cast at hfuel ⊢; omega
        · omega
      obtain ⟨tail, heq, hwf, hcov, hne, hempty⟩ := ih s' hs'0 hfuel' (acc ++ [(s, e)])
      refine ⟨(s, e) :: tail, ?_, ?_, ?_, ?_, ?_⟩
      · rw [heq]; simp
      · intro ab hab
        rcases List.mem_cons.mp hab with rfl | hab
        · exact ⟨hs, hsL, he1⟩
        · exact hwf ab hab
      · intro p hp hpL
        by_cases hpe : p < e
        · exact ⟨(s, e), List.mem_cons_self _ _, hp, hpe⟩
        · have hs'p : s' ≤ p := by
            rw [hsdef]; split_ifs with h <;> omega
          obtain ⟨ab, habt, h1, h2⟩ := hcov p hs'p hpL
          exact ⟨ab, List.mem_cons_of_mem _ habt, h1, h2⟩
      · intro _
        by_cases hs'L : s' < L
        · obtain ⟨hh, hl, hc⟩ := hne hs'L
          have htne : tail ≠ [] := by
            intro h; rw [h] at hh; simp at hh
          have hgl : ((s, e) :: tail).getLast? = tail.getLast? := by
            cases tail with
            | nil => exact absurd rfl htne
            | cons t ts => simp [List.getLast?]
          have hsE : s' = s + (chunkSize - overlap) := by
            rw [hsdef] at hs'L ⊢
            split_ifs at hs'L ⊢ with h
            · have := heE h; omega
            · omega
          have htl : 1 ≤ tail.length := by
            cases tail with
            | nil => exact absurd rfl htne
            | cons t ts => simp
          refine ⟨by simp [he1], by rw [hgl]; exact hl, ?_⟩
          have hcast : (1 : Int) ≤ (tail.length : Int) := by exact_mod_cast htl
          have hring : s + (((tail.length : Int) + 1) - 1) * (chunkSize - overlap) =
              s' + ((tail.length : Int) - 1) * (chunkSize - overlap) := by
            rw [hsE]; ring
          have hlen : (((s, e) :: tail).length : Int) = (tail.length : Int) + 1 := by
            simp
          rw [hlen, hring]
          exact hc
        · have htail : tail = [] := hempty (by omega)
          have heqL : e = L := by
            rw [hsdef] at hs'L
            split_ifs at hs'L with h
            · omega
            · omega
          subst htail
          refine ⟨by simp [he1], by simp [heqL], ?_⟩
          simp; omega
      · intro h; omega
    · refine ⟨[], ?_, ?_, ?_, ?_, ?_⟩
      · rw [chunkSpansLoop_succ, if_neg hsL]; simp
      · simp
      · intro p hp hpL; omega
      · intro h; omega
      · intro _; rfl

theorem chunkSpans_spec (L chunkSize overlap : Int) (hL : 0 ≤ L)
    (hsize : 0 < chunkSize) (hov0 : 0 ≤ overlap) (hov : overlap < chunkSize) :
    ∃ spans : List (Int × Int),
      chunkSpans L chunkSize overlap = some spans ∧
      (∀ ab ∈ spans, 0 ≤ ab.1 ∧ ab.1 < L ∧ ab.2 = min (ab.1 + chunkSize) L) ∧
      (∀ p : Int, 0 ≤ p → p < L → ∃ ab ∈ spans, ab.1 ≤ p ∧ p < ab.2) ∧
      (0 < L → spans.head? = some (0, min chunkSize L) ∧
        (spans.getLast?).map Prod.snd = some L ∧
        ((spans.length : Int) - 1) * (chunkSize - overlap) < L) ∧
      (L ≤ 0 → spans = []) := by
  obtain ⟨tail, heq, hwf, hcov, hne, hempty⟩ :=
    chunkSpansLoop_spec L chunkSize overlap hsize hov0 hov (L.toNat + 1) 0 le_rfl
      (by push_cast; omega) []
  refine ⟨tail, by simpa [chunkSpans] using heq, hwf, fun p hp hpL => hcov p hp hpL, ?_, hempty⟩
  intro h0
  obtain ⟨hh, hl, hc⟩ := hne h0
  exact ⟨by simpa using hh, hl, by simpa using hc⟩

theorem chunkSpans_single (L chunkSize overlap : Int) (h0 : 0 < L) (hle : L ≤ chunkSize) :
    chunkSpans L chunkSize overlap = some [(0, L)] := by
  unfold chunkSpans
  rw [chunkSpansLoop_succ, if_pos h0]
  have he : (if (0 : Int) + chunkSize > L then L else 0 + chunkSize) = L := by
    split_ifs <;> omega
  rw [he]
  simp only [lt_irrefl, if_false, List.nil_append]
  exact chunkSpansLoop_exit (lt_irrefl L) _ _

/-- C1: for every text and every configuration with `size > 0` and
`0 ≤ overlap < size`, the chunks of `create_overlapping_chunks`, taken in
order, span the intervals `[start, min(start+size, len))`; their union covers
`[0, len)` with no gap; the last chunk's end is `len` (whenever a chunk
exists, i.e. the text is non-empty); and a text of length 1000 with
`size = 400`, `overlap = 100` yields exactly the spans
`[0,400), [300,700), [600,1000)`. -/
theorem C1_chunk_coverage (text : List Char) (chunkSize overlap : Int)
    (hsize : 0 < chunkSize) (hov0 : 0 ≤ overlap) (hov : overlap < chunkSize) :
    ∃ spans : List (Int × Int),
      chunkSpans (text.length : Int) chunkSize overlap = some spans ∧
      create_overlapping_chunks text chunkSize overlap =
        some (spans.map fun ab => pySlice text ab.1 ab.2) ∧
      (∀ ab ∈ spans, ab.2 = min (ab.1 + chunkSize) (text.length : Int)) ∧
      (∀ p : Int, 0 ≤ p → p < (text.length : Int) →
        ∃ ab ∈ spans, ab.1 ≤ p ∧ p < ab.2) ∧
      (0 < (text.length : Int) →
        (spans.getLast?).map Prod.snd = some (text.length : Int)) ∧
      chunkSpans 1000 400 100 = some [(0, 400), (300, 700), (600, 1000)] := by
  obtain ⟨spans, heq, hwf, hcov, hne, _⟩ :=
    chunkSpans_spec (text.length : Int) chunkSize overlap (by positivity) hsize hov0 hov
  refine ⟨spans, heq, ?_, fun ab hab => (hwf ab hab).2.2, hcov,
    fun h0 => ((hne h0).2.1), by decide⟩
  unfold create_overlapping_chunks
  rw [heq]
  rfl

theorem C1_chunk_coverage_witness :
    (((0 : Int) < 3) ∧ ((0 : Int) ≤ 1) ∧ ((1 : Int) < 3)) ∧
    (∃ spans : List (Int × Int),
      chunkSpans ((['a', 'b', 'c', 'd', 'e'] : List Char).length : Int) 3 1 = some spans ∧
      create_overlapping_chunks ['a', 'b', 'c', 'd', 'e'] 3 1 =
        some (spans.map fun ab => pySlice ['a', 'b', 'c', 'd', 'e'] ab.1 ab.2) ∧
      (∀ ab ∈ spans, ab.2 = min (ab.1 + 3) ((['a', 'b', 'c', 'd', 'e'] : List Char).length : Int)) ∧
      (∀ p : Int, 0 ≤ p → p < ((['a', 'b', 'c', 'd', 'e'] : List Char).length : Int) →
        ∃ ab ∈ spans, ab.1 ≤ p ∧ p < ab.2) ∧
      (0 < ((['a', 'b', 'c', 'd', 'e'] : List Char).length : Int) →
        (spans.getLast?).map Prod.snd = some ((['a', 'b', 'c', 'd', 'e'] : List Char).length : Int)) ∧
      chunkSpans 1000 400 100 = some [(0, 400), (300, 700), (600, 1000)]) :=
  ⟨⟨by norm_num, by norm_num, by norm_num⟩,
    C1_chunk_coverage ['a', 'b', 'c', 'd', 'e'] 3 1 (by norm_num) (by norm_num) (by norm_num)⟩

/-- C2: the source chunker performs no configuration validation at all: with
`overlap ≥ size` (text length 2, `size = 1`, `overlap = 1`) or with
`size = 0` (text length 1, `size = 0`, `overlap = 0`) the loop re-enters the
same `start = 0` state forever — it terminates under no finite iteration
bound, and no `ConfigurationError` is ever raised (the source defines no such
check).  This contradicts the claim's required fail-fast behaviour. -/
theorem C2_no_fail_fast :
    (∀ (fuel : Nat) (acc : List (Int × Int)),
      chunkSpansLoop 2 1 1 fuel 0 acc = Option.none) ∧
    (∀ (fuel : Nat) (acc : List (Int × Int)),
      chunkSpansLoop 1 0 0 fuel 0 acc = Option.none) ∧
    chunkSpans 2 1 1 = Option.none ∧ chunkSpans 1 0 0 = Option.none := by
  have h1 : ∀ (fuel : Nat) (acc : List (Int × Int)),
      chunkSpansLoop 2 1 1 fuel 0 acc = Option.none := by
    intro fuel
    induction fuel with
    | zero => intro acc; norm_num [chunkSpansLoop]
    | succ fuel ih =>
      intro acc
      rw [chunkSpansLoop_succ]
      norm_num
      exact ih _
  have h2 : ∀ (fuel : Nat) (acc : List (Int × Int)),
      chunkSpansLoop 1 0 0 fuel 0 acc = Option.none := by
    intro fuel
    induction fuel with
    | zero => intro acc; norm_num [chunkSpansLoop]
    | succ fuel ih =>
      intro acc
      rw [chunkSpansLoop_succ]
      norm_num
      exact ih _
  exact ⟨h1, h2, h1 _ _, h2 _ _⟩

/-- C7: the number of chunks is at most `ceil(len / (size - overlap))`
(written with `Nat` floor division as `(len + d - 1) / d` for
`d = size - overlap`); it is exactly 1 when `0 < len ≤ size`; and empty text
yields zero chunks. -/
theorem C7_chunk_count (text : List Char) (chunkSize overlap : Int)
    (hsize : 0 < chunkSize) (hov0 : 0 ≤ overlap) (hov : overlap < chunkSize) :
    ∃ spans : List (Int × Int),
      chunkSpans (text.length : Int) chunkSize overlap = some spans ∧
      spans.length ≤
        (text.length + (chunkSize - overlap).toNat - 1) / (chunkSize - overlap).toNat ∧
      (0 < text.length → (text.length : Int) ≤ chunkSize → spans.length = 1) ∧
      (text.length = 0 → spans = []) := by
  obtain ⟨spans, heq, hwf, hcov, hne, hempty⟩ :=
    chunkSpans_spec (text.length : Int) chunkSize overlap (by positivity) hsize hov0 hov
  have hdc : (((chunkSize - overlap).toNat : Int)) = chunkSize - overlap :=
    Int.toNat_of_nonneg (by omega)
  refine ⟨spans, heq, ?_, ?_, ?_⟩
  · rcases Nat.eq_zero_or_pos text.length with hz | hpos
    · have : spans = [] := hempty (by exact_mod_cast hz.le)
      simp [this]
    · have h0 : (0 : Int) < (text.length : Int) := by exact_mod_cast hpos
      obtain ⟨hh, _, hc⟩ := hne h0
      have hprod : ((spans.length : Int)) * (chunkSize - overlap) ≤
          (text.length : Int) + (chunkSize - overlap) - 1 := by
        have expand : ((spans.length : Int)) * (chunkSize - overlap) =
            ((spans.length : Int) - 1) * (chunkSize - overlap) + (chunkSize - overlap) := by
          ring
        linarith [hc]
      have hm : ((spans.length * (chunkSize - overlap).toNat : Nat) : Int) =
          (spans.length : Int) * (chunkSize - overlap) := by
        push_cast [hdc]
        ring
      have key : spans.length * (chunkSize - overlap).toNat ≤
          text.length + (chunkSize - overlap).toNat - 1 := by omega
      exact (Nat.le_div_iff_mul_le (by omega)).mpr key
  · intro hpos hle
    have h0 : (0 : Int) < (text.length : Int) := by exact_mod_cast hpos
    have := chunkSpans_single (text.length : Int) chunkSize overlap h0 hle
    rw [this] at heq
    have : spans = [(0, (text.length : Int))] := by
      exact (Option.some.inj heq).symm
    simp [this]
  · intro hz
    exact hempty (by exact_mod_cast hz.le)

theorem C7_chunk_count_witness :
    (((0 : Int) < 3) ∧ ((0 : Int) ≤ 1) ∧ ((1 : Int) < 3)) ∧
    (∃ spans : List (Int × Int),
      chunkSpans ((['a', 'b', 'c', 'd', 'e', 'f'] : List Char).length : Int) 3 1 = some spans ∧
      spans.length ≤
        ((['a', 'b', 'c', 'd', 'e', 'f'] : List Char).length + ((3 : Int) - 1).toNat - 1) /
          ((3 : Int) - 1).toNat ∧
      (0 < (['a', 'b', 'c', 'd', 'e', 'f'] : List Char).length →
        (((['a', 'b', 'c', 'd', 'e', 'f'] : List Char).length : Int)) ≤ 3 → spans.length = 1) ∧
      ((['a', 'b', 'c', 'd', 'e', 'f'] : List Char).length = 0 → spans = [])) :=
  ⟨⟨by norm_num, by norm_num, by norm_num⟩,
    C7_chunk_count ['a', 'b', 'c', 'd', 'e', 'f'] 3 1 (by norm_num) (by norm_num) (by norm_num)⟩

/-! ## Dedup pipeline lemmas -/

theorem dedupLoop_append (xs ys : List Extraction) :
    ∀ s c, dedupLoop s c (xs ++ ys) =
      dedupLoop (dedupLoop s c xs).1 (dedupLoop s c xs).2 ys := by
  induction xs with
  | nil => intro s c; rfl
  | cons x xs ih =>
    intro s c
    by_cases h : extractionKey x ∈ s
    · simp only [List.cons_append, dedupLoop, if_pos h]
      exact ih s c
    · simp only [List.cons_append, dedupLoop, if_neg h]
      exact ih _ _

theorem dedupLoop_fst (xs : List Extraction) :
    ∀ s c c', (dedupLoop s c xs).1 = (dedupLoop s c' xs).1 := by
  induction xs with
  | nil => intro s c c'; rfl
  | cons x xs ih =>
    intro s c c'
    by_cases h : extractionKey x ∈ s
    · simp only [dedupLoop, if_pos h]; exact ih s c c'
    · simp only [dedupLoop, if_neg h]; exact ih _ _ _

theorem dedupLoop_snd (xs : List Extraction) :
    ∀ s c, (dedupLoop s c xs).2 = c ++ (dedupLoop s [] xs).2 := by
  induction xs with
  | nil => intro s c; simp [dedupLoop]
  | cons x xs ih =>
    intro s c
    by_cases h : extractionKey x ∈ s
    · simp only [dedupLoop, if_pos h]; exact ih s c
    · simp only [dedupLoop, if_neg h]
      rw [ih _ (c ++ [x]), ih _ ([] ++ [x])]
      simp

theorem passLoop_eq (oracle : Nat → Nat → Option (List Extraction)) (i : Nat)
    (ps : List Nat) :
    ∀ st, passLoop oracle i ps st =
      dedupLoop st.1 st.2 (flatMapList (fun p => (oracle i p).getD []) ps) := by
  induction ps with
  | nil => intro st; rfl
  | cons p ps ih =>
    intro st
    cases h : oracle i p with
    | none =>
      simp only [passLoop, h, flatMapList, Option.getD, List.nil_append]
      exact ih st
    | some exts =>
      simp only [passLoop, h, flatMapList, Option.getD_some]
      rw [ih, dedupLoop_append]

theorem chunkProcessLoop_eq (oracle : Nat → Nat → Option (List Extraction))
    (passes : Nat) (is : List Nat) :
    ∀ st, chunkProcessLoop oracle passes is st =
      dedupLoop st.1 st.2
        (flatMapList
          (fun i => flatMapList (fun p => (oracle i p).getD []) (List.range passes)) is) := by
  induction is with
  | nil => intro st; rfl
  | cons i is ih =>
    intro st
    simp only [chunkProcessLoop, flatMapList]
    rw [ih, dedupLoop_append, passLoop_eq]
    congr 1
    · exact dedupLoop_fst _ _ _ _
    · exact (dedupLoop_snd _ _ _).symm

theorem runState_eq (oracle : Nat → Nat → Option (List Extraction))
    (numChunks passes : Nat) :
    chunkProcessLoop oracle passes (List.range numChunks) ([], []) =
      dedupLoop [] [] (oracleStream oracle numChunks passes) := by
  rw [chunkProcessLoop_eq]
  rfl

theorem dedupLoop_eq_firstSeen (xs : List Extraction) :
    ∀ s c, (dedupLoop s c xs).2 = c ++ firstSeenSpec s xs := by
  induction xs with
  | nil => intro s c; simp [dedupLoop, firstSeenSpec]
  | cons x xs ih =>
    intro s c
    by_cases h : extractionKey x ∈ s
    · simp only [dedupLoop, firstSeenSpec, if_pos h]; exact ih s c
    · simp only [dedupLoop, firstSeenSpec, if_neg h]
      rw [ih]
      simp

theorem dedupLoop_seen_nodup (xs : List Extraction) :
    ∀ s c, s.Nodup → (dedupLoop s c xs).1.Nodup := by
  induction xs with
  | nil => intro s c hs; exact hs
  | cons x xs ih =>
    intro s c hs
    by_cases h : extractionKey x ∈ s
    · simp only [dedupLoop, if_pos h]; exact ih s c hs
    · simp only [dedupLoop, if_neg h]
      exact ih _ _ (List.nodup_cons.mpr ⟨h, hs⟩)

theorem dedupLoop_seen_suffix (xs : List Extraction) :
    ∀ s c, s <:+ (dedupLoop s c xs).1 := by
  induction xs with
  | nil => intro s c; exact List.suffix_rfl
  | cons x xs ih =>
    intro s c
    by_cases h : extractionKey x ∈ s
    · simp only [dedupLoop, if_pos h]; exact ih s c
    · simp only [dedupLoop, if_neg h]
      exact (List.suffix_cons (extractionKey x) s).trans (ih _ _)

theorem dedupLoop_first (xs : List Extraction) :
    ∀ s c e, e ∈ (dedupLoop s c xs).2 →
      e ∈ c ∨ (extractionKey e ∉ s ∧
        xs.find? (fun x => decide (extractionKey x = extractionKey e)) = some e) := by
  induction xs with
  | nil => intro s c e he; left; exact he
  | cons x xs ih =>
    intro s c e he
    by_cases h : extractionKey x ∈ s
    · simp only [dedupLoop, if_pos h] at he
      rcases ih s c e he with hc | ⟨hk, hf⟩
      · left; exact hc
      · right
        refine ⟨hk, ?_⟩
        rw [List.find?_cons_of_neg]
        · exact hf
        · simp only [decide_eq_true_eq]
          intro hxe
          exact hk (hxe ▸ h)
    · simp only [dedupLoop, if_neg h] at he
      rcases ih _ _ e he with hc | ⟨hk, hf⟩
      · rcases List.mem_append.mp hc with hc | hx
        · left; exact hc
        · have hex : e = x := by simpa using hx
          subst hex
          right
          refine ⟨h, ?_⟩
          rw [List.find?_cons_of_pos]
          simp
      · have hk1 : extractionKey e ∉ s := fun hs => hk (List.mem_cons_of_mem _ hs)
        have hk2 : extractionKey x ≠ extractionKey e := fun hh => hk (by
          rw [hh]; exact List.mem_cons_self _ _)
        right
        refine ⟨hk1, ?_⟩
        rw [List.find?_cons_of_neg]
        · exact hf
        · simpa using hk2

theorem dedupLoop_keys_nodup (xs : List Extraction) :
    ∀ s c, (c.map extractionKey).Nodup → (∀ e ∈ c, extractionKey e ∈ s) →
      ((dedupLoop s c xs).2.map extractionKey).Nodup := by
  induction xs with
  | nil => intro s c h1 _; exact h1
  | cons x xs ih =>
    intro s c h1 h2
    by_cases h : extractionKey x ∈ s
    · simp only [dedupLoop, if_pos h]; exact ih s c h1 h2
    · simp only [dedupLoop, if_neg h]
      apply ih
      · rw [List.map_append]
        refine List.Nodup.append h1 (by simp) ?_
        intro k hk1 hk2
        simp only [List.map_cons, List.map_nil, List.mem_singleton] at hk2
        subst hk2
        rcases List.mem_map.mp hk1 with ⟨e, he, hke⟩
        exact h (hke ▸ h2 e he)
      · intro e he
        rcases List.mem_append.mp he with he | he
        · exact List.mem_cons_of_mem _ (h2 e he)
        · have : e = x := by simpa using he
          subst this
          exact List.mem_cons_self _ _

theorem chunkProcessLoop_append (oracle : Nat → Nat → Option (List Extraction))
    (passes : Nat) (is1 is2 : List Nat) :
    ∀ st, chunkProcessLoop oracle passes (is1 ++ is2) st =
      chunkProcessLoop oracle passes is2 (chunkProcessLoop oracle passes is1 st) := by
  induction is1 with
  | nil => intro st; rfl
  | cons i is1 ih =>
    intro st
    simp only [List.cons_append, chunkProcessLoop]
    exact ih _

theorem seenAfter_succ_suffix (oracle : Nat → Nat → Option (List Extraction))
    (passes n : Nat) :
    seenAfter oracle passes n <:+ seenAfter oracle passes (n + 1) := by
  unfold seenAfter
  rw [List.range_succ, chunkProcessLoop_append]
  set st := chunkProcessLoop oracle passes (List.range n) ([], []) with hst
  show st.1 <:+ (chunkProcessLoop oracle passes [n] st).1
  simp only [chunkProcessLoop]
  rw [passLoop_eq]
  exact dedupLoop_seen_suffix _ st.1 []

theorem seenAfter_mono (oracle : Nat → Nat → Option (List Extraction))
    (passes : Nat) : ∀ m n : Nat, m ≤ n →
      seenAfter oracle passes m <:+ seenAfter oracle passes n := by
  intro m n
  induction n with
  | zero =>
    intro h
    have : m = 0 := Nat.le_zero.mp h
    subst this
    exact List.suffix_rfl
  | succ n ih =>
    intro h
    by_cases hm : m ≤ n
    · exact (ih hm).trans (seenAfter_succ_suffix oracle passes n)
    · have hm2 : m = n + 1 := by omega
      subst hm2
      exact List.suffix_rfl

theorem process_pdf_eq_doc (oracle : Nat → Nat → Option (List Extraction))
    (text : List Char) (chunkSize overlap : Int) (passes : Nat) (d : AnnotatedDocument)
    (h : process_pdf oracle text chunkSize overlap passes = some (some d)) :
    ∃ spans : List (Int × Int),
      chunkSpans (text.length : Int) chunkSize overlap = some spans ∧
      d = ⟨text, (chunkProcessLoop oracle passes (List.range spans.length) ([], [])).2⟩ := by
  unfold process_pdf at h
  split at h
  · simp at h
  · split at h
    next => simp at h
    next spans hspans =>
      have h' :
          some (if (chunkProcessLoop oracle passes (List.range spans.length) ([], [])).2 = []
            then Option.none
            else some (⟨text,
              (chunkProcessLoop oracle passes (List.range spans.length) ([], [])).2⟩ :
                AnnotatedDocument)) = some (some d) := h
      split at h'
      · simp at h'
      · exact ⟨spans, hspans, (Option.some.inj (Option.some.inj h')).symm⟩

theorem passLoop_congr (o1 o2 : Nat → Nat → Option (List Extraction)) (i : Nat)
    (h : ∀ p, o1 i p = o2 i p ∨ (o1 i p = Option.none ∧ o2 i p = some [])) :
    ∀ ps st, passLoop o1 i ps st = passLoop o2 i ps st := by
  intro ps
  induction ps with
  | nil => intro st; rfl
  | cons p ps ih =>
    intro st
    rcases h p with heq | ⟨h1, h2⟩
    · cases ho : o2 i p with
      | none =>
        simp only [passLoop, heq.trans ho, ho]
        exact ih st
      | some exts =>
        simp only [passLoop, heq.trans ho, ho]
        exact ih _
    · simp only [passLoop, h1, h2]
      exact ih st

theorem chunkProcessLoop_congr (o1 o2 : Nat → Nat → Option (List Extraction))
    (passes : Nat)
    (h : ∀ i p, o1 i p = o2 i p ∨ (o1 i p = Option.none ∧ o2 i p = some [])) :
    ∀ is st, chunkProcessLoop o1 passes is st = chunkProcessLoop o2 passes is st := by
  intro is
  induction is with
  | nil => intro st; rfl
  | cons i is ih =>
    intro st
    simp only [chunkProcessLoop]
    rw [passLoop_congr o1 o2 i (h i) (List.range passes) (st.1, [])]
    exact ih _

theorem flatMapList_nil (f : Nat → List Extraction) (xs : List Nat)
    (h : ∀ x ∈ xs, f x = []) : flatMapList f xs = [] := by
  induction xs with
  | nil => rfl
  | cons x xs ih =>
    simp only [flatMapList]
    rw [h x (List.mem_cons_self _ _), ih (fun y hy => h y (List.mem_cons_of_mem _ hy))]
    rfl

/-- C3: across one document run, the first extraction with a given
`(class, text)` identity is the one kept — with its own attributes — and
every later extraction with the same identity is dropped; the seen-set holds
at most one entry per identity (it is duplicate-free); and the concrete
scenario: two passes over one chunk, each returning a
`("character", "ROMEO")` extraction with different attribute maps, leave
exactly one such extraction, carrying the first pass's attributes. -/
theorem C3_dedup_first_wins (oracle : Nat → Nat → Option (List Extraction))
    (numChunks passes : Nat) :
    (chunkProcessLoop oracle passes (List.range numChunks) ([], [])).1.Nodup ∧
    (∀ e ∈ (chunkProcessLoop oracle passes (List.range numChunks) ([], [])).2,
      (oracleStream oracle numChunks passes).find?
        (fun x => decide (extractionKey x = extractionKey e)) = some e) ∧
    ((chunkProcessLoop oracle passes
        (List.range numChunks) ([], [])).2.map extractionKey).Nodup ∧
    (chunkProcessLoop
        (fun i p =>
          if i = 0 ∧ p = 0 then
            some [⟨"character", "ROMEO", [("emotional_state", "wonder")]⟩]
          else if i = 0 ∧ p = 1 then
            some [⟨"character", "ROMEO", [("emotional_state", "despair")]⟩]
          else Option.none)
        2 (List.range 1) ([], [])).2 =
      [⟨"character", "ROMEO", [("emotional_state", "wonder")]⟩] := by
  refine ⟨?_, ?_, ?_, by decide⟩
  · rw [runState_eq]
    exact dedupLoop_seen_nodup _ [] [] List.nodup_nil
  · intro e he
    rw [runState_eq] at he
    rcases dedupLoop_first _ [] [] e he with hc | ⟨_, hf⟩
    · simp at hc
    · exact hf
  · rw [runState_eq]
    exact dedupLoop_keys_nodup _ [] [] (by simp) (by simp)

/-- C6: whenever `process_pdf` returns an `AnnotatedDocument`, its
`extractions` are exactly the first-seen extractions of the run, in the order
of their first admission — the oracle stream ordered by (chunk index, pass
index, oracle-returned order), filtered to first occurrences of each
identity. -/
theorem C6_order_preservation (oracle : Nat → Nat → Option (List Extraction))
    (text : List Char) (chunkSize overlap : Int) (passes : Nat) (d : AnnotatedDocument)
    (h : process_pdf oracle text chunkSize overlap passes = some (some d)) :
    ∃ spans : List (Int × Int),
      chunkSpans (text.length : Int) chunkSize overlap = some spans ∧
      d.text = text ∧
      d.extractions = firstSeenSpec [] (oracleStream oracle spans.length passes) := by
  obtain ⟨spans, hspans, hd⟩ := process_pdf_eq_doc oracle text chunkSize overlap passes d h
  refine ⟨spans, hspans, by rw [hd], ?_⟩
  rw [hd]
  show (chunkProcessLoop oracle passes (List.range spans.length) ([], [])).2 = _
  rw [runState_eq, dedupLoop_eq_firstSeen]
  rfl

theorem C6_order_preservation_witness :
    (process_pdf (fun _ _ => some [⟨"isin", "IE00B4L5Y983", []⟩]) ['a'] 1 0 1 =
      some (some ⟨['a'], [⟨"isin", "IE00B4L5Y983", []⟩]⟩)) ∧
    (∃ spans : List (Int × Int),
      chunkSpans (((['a'] : List Char).length : Nat) : Int) 1 0 = some spans ∧
      (AnnotatedDocument.mk ['a'] [⟨"isin", "IE00B4L5Y983", []⟩]).text = ['a'] ∧
      (AnnotatedDocument.mk ['a'] [⟨"isin", "IE00B4L5Y983", []⟩]).extractions =
        firstSeenSpec []
          (oracleStream (fun _ _ => some [⟨"isin", "IE00B4L5Y983", []⟩]) spans.length 1)) :=
  ⟨by decide, C6_order_preservation _ ['a'] 1 0 1 _ (by decide)⟩

/-- C9: the seen-set of a run starts empty (`set()` at the start of the
document run — nothing persists from any earlier run), each admit operation
either leaves it unchanged or adds exactly the new identity, and the seen-set
after `m` chunks is a suffix of (is contained in) the seen-set after `n ≥ m`
chunks: it only grows and is never shrunk. -/
theorem C9_seen_monotone (oracle : Nat → Nat → Option (List Extraction))
    (passes m n : Nat) (h : m ≤ n) :
    seenAfter oracle passes 0 = [] ∧
    (∀ (s : List (String × String)) (c : List Extraction) (e : Extraction),
      (dedupLoop s c [e]).1 = s ∨ (dedupLoop s c [e]).1 = extractionKey e :: s) ∧
    seenAfter oracle passes m <:+ seenAfter oracle passes n := by
  refine ⟨rfl, ?_, seenAfter_mono oracle passes m n h⟩
  intro s c e
  by_cases he : extractionKey e ∈ s
  · left; simp [dedupLoop, he]
  · right; simp [dedupLoop, he]

theorem C9_seen_monotone_witness :
    (1 ≤ 2) ∧
    (seenAfter (fun _ _ => Option.none) 1 0 = [] ∧
      (∀ (s : List (String × String)) (c : List Extraction) (e : Extraction),
        (dedupLoop s c [e]).1 = s ∨ (dedupLoop s c [e]).1 = extractionKey e :: s) ∧
      seenAfter (fun _ _ => Option.none) 1 1 <:+ seenAfter (fun _ _ => Option.none) 1 2) :=
  ⟨by norm_num, C9_seen_monotone (fun _ _ => Option.none) 1 1 2 (by norm_num)⟩

/-- C5: a failed pass is isolated: replacing one failing oracle invocation
(chunk `i`, pass `k`) by a successful empty one changes nothing — the failed
pass contributes exactly zero extractions while every other pass and chunk
executes identically — and, for a valid chunk configuration, the run still
returns a document-level result (it terminates with some Python value). -/
theorem C5_pass_isolation (oracle : Nat → Nat → Option (List Extraction))
    (text : List Char) (chunkSize overlap : Int) (passes i k : Nat)
    (hfail : oracle i k = Option.none)
    (hsize : 0 < chunkSize) (hov0 : 0 ≤ overlap) (hov : overlap < chunkSize) :
    process_pdf oracle text chunkSize overlap passes =
      process_pdf (updateOracle oracle i k (some [])) text chunkSize overlap passes ∧
    ∃ r, process_pdf oracle text chunkSize overlap passes = some r := by
  have hcong : ∀ j p, oracle j p = updateOracle oracle i k (some []) j p ∨
      (oracle j p = Option.none ∧ updateOracle oracle i k (some []) j p = some []) := by
    intro j p
    by_cases hj : j = i ∧ p = k
    · right
      refine ⟨?_, by simp [updateOracle, hj]⟩
      rw [hj.1, hj.2]
      exact hfail
    · left
      simp [updateOracle, hj]
  constructor
  · unfold process_pdf
    by_cases hstrip : stripIsEmpty text
    · simp [hstrip]
    · simp only [if_neg hstrip]
      cases hc : chunkSpans (text.length : Int) chunkSize overlap with
      | none => rfl
      | some spans =>
        dsimp only
        rw [chunkProcessLoop_congr oracle _ passes hcong (List.range spans.length) ([], [])]
  · by_cases hstrip : stripIsEmpty text
    · exact ⟨Option.none, by unfold process_pdf; rw [if_pos hstrip]⟩
    · obtain ⟨spans, heq, _⟩ :=
        chunkSpans_spec (text.length : Int) chunkSize overlap (by positivity) hsize hov0 hov
      refine ⟨if (chunkProcessLoop oracle passes (List.range spans.length) ([], [])).2 = []
          then Option.none
          else some ⟨text, (chunkProcessLoop oracle passes (List.range spans.length) ([], [])).2⟩,
        ?_⟩
      unfold process_pdf
      rw [if_neg hstrip, heq]

theorem C5_pass_isolation_witness :
    ((fun j p => if j = 0 ∧ p = 0 then Option.none
        else some [Extraction.mk "issuer" "Vanguard" []]) 0 0 =
      (Option.none : Option (List Extraction)) ∧
      (0 : Int) < 2 ∧ (0 : Int) ≤ 0 ∧ (0 : Int) < 2) ∧
    (process_pdf
        (fun j p => if j = 0 ∧ p = 0 then Option.none
          else some [Extraction.mk "issuer" "Vanguard" []]) ['a', 'b'] 2 0 2 =
      process_pdf
        (updateOracle
          (fun j p => if j = 0 ∧ p = 0 then Option.none
            else some [Extraction.mk "issuer" "Vanguard" []]) 0 0 (some []))
        ['a', 'b'] 2 0 2 ∧
    ∃ r, process_pdf
        (fun j p => if j = 0 ∧ p = 0 then Option.none
          else some [Extraction.mk "issuer" "Vanguard" []]) ['a', 'b'] 2 0 2 = some r) :=
  ⟨⟨by decide, by norm_num, le_rfl, by norm_num⟩,
    C5_pass_isolation _ ['a', 'b'] 2 0 2 0 0 (by decide) (by norm_num) le_rfl (by norm_num)⟩

/-- C4 (amended): a run in which every oracle invocation fails completes and
returns Python `None` — the empty-result sentinel the source uses — rather
than raising an exception; it does not build an `AnnotatedDocument`. -/
theorem C4_all_fail_returns_none (oracle : Nat → Nat → Option (List Extraction))
    (text : List Char) (chunkSize overlap : Int) (passes : Nat)
    (hfail : ∀ i p, oracle i p = Option.none)
    (hsize : 0 < chunkSize) (hov0 : 0 ≤ overlap) (hov : overlap < chunkSize) :
    process_pdf oracle text chunkSize overlap passes = some Option.none := by
  unfold process_pdf
  by_cases hstrip : stripIsEmpty text
  · rw [if_pos hstrip]
  · rw [if_neg hstrip]
    obtain ⟨spans, heq, _⟩ :=
      chunkSpans_spec (text.length : Int) chunkSize overlap (by positivity) hsize hov0 hov
    rw [heq]
    have hstream : oracleStream oracle spans.length passes = [] := by
      unfold oracleStream
      apply flatMapList_nil
      intro j _
      apply flatMapList_nil
      intro p _
      rw [hfail j p]
      rfl
    have hst : (chunkProcessLoop oracle passes (List.range spans.length) ([], [])).2 = [] := by
      rw [runState_eq, hstream]
      rfl
    simp [hst]

theorem C4_counterexample :
    ¬ ∃ d : AnnotatedDocument,
      process_pdf (fun _ _ => Option.none) ['a'] 1 0 1 = some (some d) := by
  rintro ⟨d, hd⟩
  have h : process_pdf (fun _ _ => Option.none) ['a'] 1 0 1 = some Option.none := by decide
  rw [h] at hd
  simp at hd

theorem C4_all_fail_returns_none_witness :
    ((∀ i p : Nat,
        (fun _ _ => (Option.none : Option (List Extraction))) i p = Option.none) ∧
      (0 : Int) < 1 ∧ (0 : Int) ≤ 0 ∧ (0 : Int) < 1) ∧
    process_pdf (fun _ _ => Option.none) ['b'] 1 0 1 = some Option.none :=
  ⟨⟨fun _ _ => rfl, by norm_num, le_rfl, by norm_num⟩,
    C4_all_fail_returns_none _ ['b'] 1 0 1 (fun _ _ => rfl) (by norm_num) le_rfl (by norm_num)⟩

/-! ## Formatter lemmas -/

theorem getLast?_cons_ne {α : Type} (x : α) (l : List α) (h : l ≠ []) :
    (x :: l).getLast? = l.getLast? := by
  cases l with
  | nil => exact absurd rfl h
  | cons a as => exact List.getLast?_cons_cons

theorem dictKeys_dictSet {α : Type} (m : List (String × α)) (k : String) (v : α)
    (h : k ∈ dictKeys m) : dictKeys (dictSet m k v) = dictKeys m := by
  unfold dictSet
  rw [if_pos h]
  unfold dictKeys
  rw [List.map_map]
  apply List.map_congr_left
  intro kv _
  by_cases hk : kv.1 = k
  · simp [Function.comp, hk]
  · simp [Function.comp, hk]

theorem dictGet_append {α : Type} (m1 m2 : List (String × α)) (c : String) :
    dictGet (m1 ++ m2) c = (dictGet m1 c).elim (dictGet m2 c) some := by
  induction m1 with
  | nil => simp [dictGet]
  | cons kv rest ih =>
    by_cases hk : kv.1 = c
    · simp [dictGet, hk]
    · simp [dictGet, hk, ih]

theorem dictGet_map_update_self {α : Type} (k : String) (v : α) :
    ∀ m : List (String × α), k ∈ dictKeys m →
      dictGet (m.map fun kv => if kv.1 = k then (k, v) else kv) k = some v := by
  intro m
  induction m with
  | nil => intro h; simp [dictKeys] at h
  | cons kv rest ih =>
    intro h
    by_cases hk : kv.1 = k
    · simp [dictGet, hk]
    · have h' : k ∈ dictKeys rest := by
        simp only [dictKeys, List.map_cons, List.mem_cons] at h
        rcases h with h | h
        · exact absurd h.symm hk
        · exact h
      simp [dictGet, hk, ih h']

theorem dictGet_dictSet_self {α : Type} (m : List (String × α)) (k : String) (v : α)
    (h : k ∈ dictKeys m) : dictGet (dictSet m k v) k = some v := by
  unfold dictSet
  rw [if_pos h]
  exact dictGet_map_update_self k v m h

theorem dictGet_map_update_ne {α : Type} (k c : String) (v : α) (h : ¬ k = c) :
    ∀ m : List (String × α),
      dictGet (m.map fun kv => if kv.1 = k then (k, v) else kv) c = dictGet m c := by
  intro m
  induction m with
  | nil => rfl
  | cons kv rest ih =>
    by_cases hk : kv.1 = k
    · simp [dictGet, hk, h, ih]
    · simp [dictGet, hk, ih]

theorem dictGet_dictSet_ne {α : Type} (m : List (String × α)) (k c : String) (v : α)
    (h : ¬ k = c) : dictGet (dictSet m k v) c = dictGet m c := by
  unfold dictSet
  split_ifs with hm
  · exact dictGet_map_update_ne k c v h m
  · rw [dictGet_append]
    cases hg : dictGet m c with
    | none => simp [dictGet, h]
    | some w => rfl

theorem dictGet_mem_keys {α : Type} (k : String) :
    ∀ m : List (String × α), (∃ v, dictGet m k = some v) → k ∈ dictKeys m := by
  intro m
  induction m with
  | nil => rintro ⟨v, hv⟩; simp [dictGet] at hv
  | cons kv rest ih =>
    rintro ⟨v, hv⟩
    by_cases hk : kv.1 = k
    · simp [dictKeys, hk]
    · simp only [dictGet, if_neg hk] at hv
      exact List.mem_cons_of_mem _ (ih ⟨v, hv⟩)

theorem formatStep_skip (info : List (String × PyVal)) (e : Extraction)
    (h : e.extraction_class ∉ dictKeys info) : formatStep info e = Except.ok info := by
  simp [formatStep, h]

theorem formatStep_spec (info : List (String × PyVal)) (e : Extraction)
    (hne : e.extraction_class ≠ "attributes")
    (hmem : e.extraction_class ∈ dictKeys info)
    (d0 : List (String × List (String × String)))
    (hd0 : dictGet info "attributes" = some (PyVal.dict d0)) :
    ∃ infoS, formatStep info e = Except.ok infoS ∧
      dictKeys infoS = dictKeys info ∧
      (∃ d1, dictGet infoS "attributes" = some (PyVal.dict d1)) ∧
      (∀ c, ¬ c = "attributes" →
        dictGet infoS c = if e.extraction_class = c
          then some (PyVal.str e.extraction_text) else dictGet info c) := by
  have hkeys1 : dictKeys (dictSet info e.extraction_class (PyVal.str e.extraction_text)) =
      dictKeys info := dictKeys_dictSet info _ _ hmem
  have hattr1 : dictGet (dictSet info e.extraction_class (PyVal.str e.extraction_text))
      "attributes" = some (PyVal.dict d0) := by
    rw [dictGet_dictSet_ne _ _ _ _ hne]
    exact hd0
  by_cases ha : e.attributes = []
  · refine ⟨dictSet info e.extraction_class (PyVal.str e.extraction_text), ?_, hkeys1,
      ⟨d0, hattr1⟩, ?_⟩
    · simp [formatStep, hmem, ha]
    · intro c hcne
      by_cases hec : e.extraction_class = c
      · subst hec
        simp [dictGet_dictSet_self _ _ _ hmem]
      · rw [if_neg hec, dictGet_dictSet_ne _ _ _ _ hec]
  · have hmemA : "attributes" ∈
        dictKeys (dictSet info e.extraction_class (PyVal.str e.extraction_text)) := by
      rw [hkeys1]
      exact dictGet_mem_keys "attributes" info ⟨_, hd0⟩
    refine ⟨dictSet (dictSet info e.extraction_class (PyVal.str e.extraction_text))
        "attributes" (PyVal.dict (dictSet d0 e.extraction_class e.attributes)), ?_, ?_, ?_, ?_⟩
    · simp [formatStep, hmem, ha, hattr1]
    · rw [dictKeys_dictSet _ _ _ hmemA, hkeys1]
    · exact ⟨_, dictGet_dictSet_self _ _ _ hmemA⟩
    · intro c hcne
      rw [dictGet_dictSet_ne _ _ _ _ (fun hh => hcne hh.symm)]
      by_cases hec : e.extraction_class = c
      · subst hec
        simp [dictGet_dictSet_self _ _ _ hmem]
      · rw [if_neg hec, dictGet_dictSet_ne _ _ _ _ hec]

theorem formatLoop_spec :
    ∀ (es : List Extraction) (info : List (String × PyVal)),
      (∀ e ∈ es, e.extraction_class ≠ "attributes") →
      dictKeys info = dictKeys fundInfoInit →
      (∃ d0, dictGet info "attributes" = some (PyVal.dict d0)) →
      ∃ info',
        formatLoop info es = Except.ok info' ∧
        dictKeys info' = dictKeys info ∧
        (∀ c, c ∈ dictKeys info → ¬ c = "attributes" →
          dictGet info' c =
            ((es.filter fun x => x.extraction_class == c).getLast?).elim
              (dictGet info c) (fun x => some (PyVal.str x.extraction_text))) ∧
        formatLoop info (es.filter fun x =>
          decide (x.extraction_class ∈ dictKeys fundInfoInit)) = Except.ok info' := by
  intro es
  induction es with
  | nil =>
    intro info _ _ _
    exact ⟨info, rfl, rfl, by intro c _ _; simp, rfl⟩
  | cons e rest ih =>
    intro info hcls hkeys hattr
    have hne : e.extraction_class ≠ "attributes" := hcls e (List.mem_cons_self _ _)
    have hclr : ∀ x ∈ rest, x.extraction_class ≠ "attributes" :=
      fun x hx => hcls x (List.mem_cons_of_mem _ hx)
    by_cases hmem : e.extraction_class ∈ dictKeys info
    · obtain ⟨d0, hd0⟩ := hattr
      obtain ⟨infoS, hstep, hkeysS, hattrS, hfieldS⟩ :=
        formatStep_spec info e hne hmem d0 hd0
      obtain ⟨info', hok, hkeys', hfields, hfilter⟩ :=
        ih infoS hclr (hkeysS.trans hkeys) hattrS
      refine ⟨info', ?_, hkeys'.trans hkeysS, ?_, ?_⟩
      · show (match formatStep info e with
          | Except.ok info2 => formatLoop info2 rest
          | Except.error msg => Except.error msg) = Except.ok info'
        rw [hstep]
        exact hok
      · intro c hc hcne
        have hc1 : c ∈ dictKeys infoS := by rw [hkeysS]; exact hc
        have hrec := hfields c hc1 hcne
        by_cases hec : e.extraction_class = c
        · have hfe : ((e :: rest).filter fun x => x.extraction_class == c) =
              e :: (rest.filter fun x => x.extraction_class == c) := by
            simp [List.filter_cons, hec]
          rw [hfe]
          cases hLast : (rest.filter fun x => x.extraction_class == c).getLast? with
          | none =>
            have hrest : (rest.filter fun x => x.extraction_class == c) = [] := by
              rwa [List.getLast?_eq_none_iff] at hLast
            rw [hLast] at hrec
            simp only [Option.elim] at hrec
            rw [hrest]
            simp only [List.getLast?_singleton, Option.elim]
            rw [hrec, hfieldS c hcne, if_pos hec]
          | some x =>
            have hrest : (rest.filter fun x => x.extraction_class == c) ≠ [] := by
              intro hh
              rw [hh] at hLast
              simp at hLast
            rw [getLast?_cons_ne e _ hrest, hLast]
            rw [hLast] at hrec
            simpa using hrec
        · have hfe : ((e :: rest).filter fun x => x.extraction_class == c) =
              rest.filter fun x => x.extraction_class == c := by
            simp [List.filter_cons, hec]
          rw [hfe]
          have hSc : dictGet infoS c = dictGet info c := by
            rw [hfieldS c hcne, if_neg hec]
          rw [hrec, hSc]
      · have hmem' : decide (e.extraction_class ∈ dictKeys fundInfoInit) = true := by
          rw [← hkeys]
          exact decide_eq_true hmem
        have hff : ((e :: rest).filter fun x =>
            decide (x.extraction_class ∈ dictKeys fundInfoInit)) =
            e :: (rest.filter fun x => decide (x.extraction_class ∈ dictKeys fundInfoInit)) := by
          simp [List.filter_cons, hmem']
        rw [hff]
        show (match formatStep info e with
          | Except.ok info2 => formatLoop info2 (rest.filter fun x =>
              decide (x.extraction_class ∈ dictKeys fundInfoInit))
          | Except.error msg => Except.error msg) = Except.ok info'
        rw [hstep]
        exact hfilter
    · have hstep : formatStep info e = Except.ok info := formatStep_skip info e hmem
      obtain ⟨info', hok, hkeys', hfields, hfilter⟩ := ih info hclr hkeys hattr
      refine ⟨info', ?_, hkeys', ?_, ?_⟩
      · show (match formatStep info e with
          | Except.ok info2 => formatLoop info2 rest
          | Except.error msg => Except.error msg) = Except.ok info'
        rw [hstep]
        exact hok
      · intro c hc hcne
        have hec : ¬ (e.extraction_class == c) = true := by
          simp only [beq_iff_eq]
          intro hh
          exact hmem (hh ▸ hc)
        have hfe : ((e :: rest).filter fun x => x.extraction_class == c) =
            rest.filter fun x => x.extraction_class == c := by
          simp [List.filter_cons, hec]
        rw [hfe]
        exact hfields c hc hcne
      · have hmem' : decide (e.extraction_class ∈ dictKeys fundInfoInit) = false := by
          rw [← hkeys]
          exact decide_eq_false hmem
        have hff : ((e :: rest).filter fun x =>
            decide (x.extraction_class ∈ dictKeys fundInfoInit)) =
            rest.filter fun x => decide (x.extraction_class ∈ dictKeys fundInfoInit) := by
          simp [List.filter_cons, hmem']
        rw [hff]
        exact hfilter

/-- C8 (amended): the formatted record keeps exactly the fixed top-level keys
`isin, asset_class, expense_ratio, issuer, attributes`; every extraction
whose class is one of the four known data fields populates that field with
its text (the last such extraction winning); and every extraction whose class
is not a key of the record is silently discarded — removing all such
extractions from the input leaves the output unchanged (they are not folded
into `attributes`). -/
theorem C8_formatter (r : AnnotatedDocument)
    (h1 : ∀ e ∈ r.extractions, e.extraction_class ≠ "attributes")
    (h2 : r.extractions ≠ []) :
    ∃ info, format_fund_info (some r) = Except.ok info ∧
      dictKeys info = ["isin", "asset_class", "expense_ratio", "issuer", "attributes"] ∧
      formatLoop fundInfoInit (r.extractions.filter fun x =>
        decide (x.extraction_class ∈ dictKeys fundInfoInit)) = Except.ok info ∧
      (∀ c ∈ (["isin", "asset_class", "expense_ratio", "issuer"] : List String),
        dictGet info c =
          ((r.extractions.filter fun x => x.extraction_class == c).getLast?).elim
            (some PyVal.none) (fun x => some (PyVal.str x.extraction_text))) := by
  obtain ⟨info, hok, hkeys, hfields, hfilter⟩ :=
    formatLoop_spec r.extractions fundInfoInit h1 rfl ⟨[], rfl⟩
  refine ⟨info, ?_, hkeys, hfilter, ?_⟩
  · show (if r.extractions = [] then Except.ok []
      else formatLoop fundInfoInit r.extractions) = Except.ok info
    rw [if_neg h2]
    exact hok
  · intro c hc
    fin_cases hc
    · rw [hfields "isin" (by decide) (by decide)]; rfl
    · rw [hfields "asset_class" (by decide) (by decide)]; rfl
    · rw [hfields "expense_ratio" (by decide) (by decide)]; rfl
    · rw [hfields "issuer" (by decide) (by decide)]; rfl

theorem C8_counterexample :
    format_fund_info (some ⟨[], [⟨"fund_name", "Alpha Fund", [("currency", "USD")]⟩]⟩) =
      Except.ok fundInfoInit ∧
    ¬ ∃ d : List (String × List (String × String)),
      dictGet fundInfoInit "attributes" = some (PyVal.dict d) ∧ "fund_name" ∈ dictKeys d := by
  constructor
  · rfl
  · rintro ⟨d, hd, hm⟩
    have h0 : dictGet fundInfoInit "attributes" = some (PyVal.dict []) := by decide
    rw [h0] at hd
    obtain rfl : ([] : List (String × List (String × String))) = d :=
      PyVal.dict.inj (Option.some.inj hd)
    simp [dictKeys] at hm

theorem C8_formatter_witness :
    ((∀ e ∈ (AnnotatedDocument.mk []
        [Extraction.mk "isin" "IE00BK5BQT80" [("currency", "USD")],
         Extraction.mk "fund_name" "Zeta" []]).extractions,
        e.extraction_class ≠ "attributes") ∧
      (AnnotatedDocument.mk []
        [Extraction.mk "isin" "IE00BK5BQT80" [("currency", "USD")],
         Extraction.mk "fund_name" "Zeta" []]).extractions ≠ []) ∧
    (∃ info, format_fund_info (some (AnnotatedDocument.mk []
        [Extraction.mk "isin" "IE00BK5BQT80" [("currency", "USD")],
         Extraction.mk "fund_name" "Zeta" []])) = Except.ok info ∧
      dictKeys info = ["isin", "asset_class", "expense_ratio", "issuer", "attributes"] ∧
      formatLoop fundInfoInit ((AnnotatedDocument.mk []
        [Extraction.mk "isin" "IE00BK5BQT80" [("currency", "USD")],
         Extraction.mk "fund_name" "Zeta" []]).extractions.filter fun x =>
          decide (x.extraction_class ∈ dictKeys fundInfoInit)) = Except.ok info ∧
      (∀ c ∈ (["isin", "asset_class", "expense_ratio", "issuer"] : List String),
        dictGet info c =
          (((AnnotatedDocument.mk []
            [Extraction.mk "isin" "IE00BK5BQT80" [("currency", "USD")],
             Extraction.mk "fund_name" "Zeta" []]).extractions.filter
              fun x => x.extraction_class == c).getLast?).elim
            (some PyVal.none) (fun x => some (PyVal.str x.extraction_text)))) :=
  ⟨⟨by decide, by decide⟩,
    C8_formatter (AnnotatedDocument.mk []
      [Extraction.mk "isin" "IE00BK5BQT80" [("currency", "USD")],
       Extraction.mk "fund_name" "Zeta" []]) (by decide) (by decide)⟩

/-! ## read_pdf lemmas -/

theorem mapOption_some {α β : Type} (f : α → Option β) :
    ∀ l : List α, (∀ x ∈ l, ∃ y, f x = some y) → ∃ ys, mapOption f l = some ys := by
  intro l
  induction l with
  | nil => intro _; exact ⟨[], rfl⟩
  | cons x xs ih =>
    intro h
    obtain ⟨y, hy⟩ := h x (List.mem_cons_self _ _)
    obtain ⟨ys, hys⟩ := ih (fun z hz => h z (List.mem_cons_of_mem _ hz))
    exact ⟨y :: ys, by simp [mapOption, hy, hys]⟩

/-- C10: `read_pdf` clamps the page range before indexing: every accessed
page index lies in `[0, total_pages)` (so the read never fails with an
`IndexError`), the clamped start lies in `[0, total_pages - 1]` whenever the
document has a page, the clamped end is at most `total_pages`, and when the
clamped start is not below the clamped end the result is the empty string. -/
theorem C10_read_pdf_clamps (pages : List (List Char)) (start_page : Int)
    (end_page : Option Int) :
    (∀ i ∈ intRange (clampedStart pages start_page) (clampedEnd pages end_page),
      0 ≤ i ∧ i < (pages.length : Int)) ∧
    (0 < (pages.length : Int) →
      0 ≤ clampedStart pages start_page ∧
      clampedStart pages start_page ≤ (pages.length : Int) - 1) ∧
    clampedEnd pages end_page ≤ (pages.length : Int) ∧
    (∃ t, read_pdf pages start_page end_page = some t) ∧
    (clampedEnd pages end_page ≤ clampedStart pages start_page →
      read_pdf pages start_page end_page = some []) := by
  have hs0 : 0 ≤ clampedStart pages start_page := le_max_left 0 _
  have heE : clampedEnd pages end_page ≤ (pages.length : Int) := by
    unfold clampedEnd
    cases end_page with
    | none => exact le_rfl
    | some ep => exact min_le_right ep _
  have hrange : ∀ i ∈ intRange (clampedStart pages start_page) (clampedEnd pages end_page),
      0 ≤ i ∧ i < (pages.length : Int) := by
    intro i hi
    unfold intRange at hi
    rcases List.mem_map.mp hi with ⟨k, hk, hik⟩
    have hk' := List.mem_range.mp hk
    omega
  refine ⟨hrange, ?_, heE, ?_, ?_⟩
  · intro hpos
    refine ⟨hs0, ?_⟩
    unfold clampedStart
    refine max_le (by omega) (min_le_right _ _)
  · have harg : ∀ i ∈ intRange (clampedStart pages start_page) (clampedEnd pages end_page),
        ∃ y, pyIndex pages i = some y := by
      intro i hi
      obtain ⟨h0i, hil⟩ := hrange i hi
      refine ⟨pages.get ⟨i.toNat, by omega⟩, ?_⟩
      unfold pyIndex
      rw [if_pos h0i]
      exact List.get?_eq_get (by omega)
    obtain ⟨ys, hys⟩ := mapOption_some (pyIndex pages)
      (intRange (clampedStart pages start_page) (clampedEnd pages end_page)) harg
    exact ⟨List.intercalate ['\n'] ys, by unfold read_pdf; rw [hys]; rfl⟩
  · intro hle
    have hr : intRange (clampedStart pages start_page) (clampedEnd pages end_page) = [] := by
      unfold intRange
      have : (clampedEnd pages end_page - clampedStart pages start_page).toNat = 0 := by
        omega
      rw [this]
      rfl
    unfold read_pdf
    rw [hr]
    rfl
